import Mathlib

/-!
Verification of the PAL3patch growable byte buffer (bytevector.c) and the
UTF-16 / UTF-8 conversion routines (wstr.c).

Modelling conventions:

* The program targets 32-bit Windows (the self test notes that a pointer is
  4 bytes), so the C type size_t is modelled as a natural number computed
  modulo SIZE_MOD = 2^32 wherever the C code can wrap around.
* A struct bvec holds three pointers: begin, end, capacity.  Only three
  observations of them matter: the stored bytes (the region from begin to
  end, modelled as a list), the byte capacity (capacity - begin, a number),
  and whether begin is the null pointer (a boolean).  So the model is
  bytes : List Nat, capacity : Nat, nullBegin : Bool.
* realloc is modelled as always succeeding on a nonzero request (allocation
  failure triggers the fatal bvec_assert and never returns), and as freeing
  the block and returning the null pointer on a zero request, which is the
  behaviour bvec_brealloc documents for itself ("if capacity == 0, then
  free previous data") and the behaviour of the MSVC runtime the program
  links against.
* The fatal error handler (the bvec_assert macro calling fail) aborts the
  process and never returns; operations that can hit it return Option,
  with none meaning a fatal abort.
* Uninitialized bytes exposed by a growing resize are modelled with the
  fill value 205 (0xCD), matching the debug fill byte of the source; no
  theorem below depends on this value.
-/

/-- Modulus of the 32-bit size_t arithmetic of the target platform. -/
def SIZE_MOD : Nat := 4294967296

/-- Modelled from the spec: BVEC_DEFAULT_CAPACITY, the "fixed default
capacity" that reserve starts from when the current capacity is zero.  The
constant lives in bytevector.h, which is not part of the given sources; the
spec fixes no numeric value, so 64 is chosen here.  Every theorem below that
touches it only uses that it is positive and below SIZE_MOD. -/
def BVEC_DEFAULT_CAPACITY : Nat := 64

/-- Model of struct bvec.  bytes is the used region (begin to end), so
bytes.length is the logical byte size (end - begin); capacity is the byte
capacity (the pointer capacity minus begin); nullBegin records whether the
begin pointer is null. -/
structure bvec where
  bytes : List Nat
  capacity : Nat
  nullBegin : Bool
deriving DecidableEq, Repr

/-- bvec_ctor: v->begin = v->end = v->capacity = NULL. -/
def bvec_ctor : bvec := ⟨[], 0, true⟩

/-- bvec_bsize: PTRSUB(v->end, v->begin). -/
def bvec_bsize (v : bvec) : Nat := v.bytes.length

/-- bvec_bcapacity: PTRSUB(v->capacity, v->begin). -/
def bvec_bcapacity (v : bvec) : Nat := v.capacity

/-- bvec_empty: !bvec_bsize(v). -/
def bvec_empty (v : bvec) : Bool := bvec_bsize v == 0

/-- bvec_clear: v->end = v->begin; allocation and capacity are retained. -/
def bvec_clear (v : bvec) : bvec := { v with bytes := [] }

/-- bvec_dtor: free(v->begin).  The destroyed struct is not observable
afterwards, so the model returns nothing. -/
def bvec_dtor (v : bvec) : Unit := ()

/-- bvec_fclear: bvec_dtor followed by bvec_ctor. -/
def bvec_fclear (v : bvec) : bvec := bvec_ctor

/-- bvec_brealloc: realloc the buffer to the requested byte capacity,
keeping the used bytes (the caller guarantees capacity >= size).  A zero
request frees the allocation and leaves begin null; a nonzero request
yields a non-null block (allocation failure is the fatal assert and never
returns). -/
def bvec_brealloc (v : bvec) (capacity : Nat) : bvec :=
  { bytes := v.bytes, capacity := capacity, nullBegin := capacity == 0 }

/-- The while loop of bvec_shrink: while (capacity && capacity / 2 >= size)
capacity /= 2. -/
def shrinkLoop (size capacity : Nat) : Nat :=
  if h : capacity ≠ 0 ∧ size ≤ capacity / 2 then shrinkLoop size (capacity / 2)
  else capacity
termination_by capacity
decreasing_by omega

/-- bvec_shrink: halve the capacity while it stays at least twice the size,
then realloc to the result. -/
def bvec_shrink (v : bvec) : bvec :=
  bvec_brealloc v (shrinkLoop (bvec_bsize v) (bvec_bcapacity v))

/-- The doubling loop of bvec_breserve: while (new_capacity < size) check
the overflow assert new_capacity * 2 > new_capacity (in size_t arithmetic,
hence the modulus) and double.  none is the fatal "integer overflow"
abort. -/
def breserveLoop (size newCapacity : Nat) : Option Nat :=
  if h : newCapacity < size then
    if h2 : newCapacity * 2 % SIZE_MOD > newCapacity then
      breserveLoop size (newCapacity * 2 % SIZE_MOD)
    else none
  else some newCapacity
termination_by size - newCapacity
decreasing_by omega

/-- bvec_breserve: make capacity at least size bytes without changing the
contents; start doubling from the old capacity, or from the default
capacity when the old capacity is zero, and realloc only when the reached
target exceeds the old capacity. -/
def bvec_breserve (v : bvec) (size : Nat) : Option bvec :=
  let old_capacity := bvec_bcapacity v
  match breserveLoop size (if old_capacity ≠ 0 then old_capacity else BVEC_DEFAULT_CAPACITY) with
  | none => none
  | some nc => some (if old_capacity < nc then bvec_brealloc v nc else v)

/-- bvec_bresize: reserve when growing, then set v->end = begin + size.
Newly exposed bytes are uninitialized, modelled by the debug fill 205. -/
def bvec_bresize (v : bvec) (size : Nat) : Option bvec :=
  let old_size := bvec_bsize v
  if old_size < size then
    match bvec_breserve v size with
    | none => none
    | some w => some { w with bytes := w.bytes ++ List.replicate (size - w.bytes.length) 205 }
  else
    some { v with bytes := v.bytes.take size }

/-- bvec_bpush: append bytes.  data is the pointed-to byte sequence, whose
length plays the role of the size argument (a null data pointer is only
legal with size 0 and is the empty list).  The new size is computed in
size_t arithmetic and the assert new_size > old_size is the fatal
"interger overflow" abort; then resize and memcpy the data into the tail. -/
def bvec_bpush (v : bvec) (data : List Nat) : Option bvec :=
  if data.length = 0 then some v
  else
    let old_size := bvec_bsize v
    let new_size := (old_size + data.length) % SIZE_MOD
    if old_size < new_size then
      match bvec_bresize v new_size with
      | none => none
      | some w => some { w with bytes := w.bytes.take old_size ++ data }
    else none

/-- bvec_bctor: bvec_ctor then bvec_bpush. -/
def bvec_bctor (data : List Nat) : Option bvec := bvec_bpush bvec_ctor data

/-- bvec_vpush: append the bytes of another vector (the debug assert
requires the two vectors to be distinct objects). -/
def bvec_vpush (dst src : bvec) : Option bvec := bvec_bpush dst src.bytes

/-- bvec_vctor: bvec_ctor then bvec_vpush. -/
def bvec_vctor (src : bvec) : Option bvec := bvec_vpush bvec_ctor src

/-- bvec_copy: the ptrEq flag models the pointer comparison dst != src; on
equal pointers nothing happens, otherwise dst is destroyed and rebuilt as
an independent copy of src. -/
def bvec_copy (dst src : bvec) (ptrEq : Bool) : Option bvec :=
  if ptrEq then some dst else bvec_vctor src

/-- bvec_move: on distinct objects dst is destroyed, takes the struct of
src verbatim, and src is reset by bvec_ctor; on equal pointers nothing
happens.  The pair is (new dst, new src). -/
def bvec_move (dst src : bvec) (ptrEq : Bool) : bvec × bvec :=
  if ptrEq then (dst, src) else (src, bvec_ctor)

/-- bvec_swap: exchange the two structs through a temporary. -/
def bvec_swap (a b : bvec) : bvec × bvec := (b, a)

/-- bvec_bpop: remove size bytes from the end.  new_size = old_size - size
in size_t arithmetic; the assert new_size < old_size is the fatal
"interger underflow" abort. -/
def bvec_bpop (v : bvec) (size : Nat) : Option bvec :=
  if size = 0 then some v
  else
    let old_size := bvec_bsize v
    let new_size := (old_size + SIZE_MOD - size % SIZE_MOD) % SIZE_MOD
    if new_size < old_size then bvec_bresize v new_size else none

/-- Modelled from the spec: the typed view macro bvec_tback for element
type char (back element access, no bounds check); the macros live in
bytevector.h which is not among the given sources.  With element size 1
this is the byte at index size - 1. -/
def bvec_tback_char (v : bvec) : Nat := v.bytes.getD (bvec_bsize v - 1) 0

/-- bvec_push_char: push the single byte of a char value. -/
def bvec_push_char (v : bvec) (c : Nat) : Option bvec := bvec_bpush v [c % 256]

/-- bvec_getstr: if the buffer is empty or its last char is not the NUL
terminator, push one NUL; the returned pointer itself is not modelled, the
result is the updated buffer. -/
def bvec_getstr (v : bvec) : Option bvec :=
  if bvec_empty v || !(bvec_tback_char v == 0) then bvec_push_char v 0 else some v

/-- Modelled from the spec: the typed view macro bvec_tback for element
type wchar_t (2 bytes on the target, little endian): the element at typed
index size/2 - 1, i.e. the two bytes at offset 2*(size/2 - 1). -/
def bvec_tback_wchar (v : bvec) : Nat :=
  v.bytes.getD (2 * (bvec_bsize v / 2 - 1)) 0
    + 256 * v.bytes.getD (2 * (bvec_bsize v / 2 - 1) + 1) 0

/-- bvec_push_wchar: push the two little-endian bytes of a wchar_t value. -/
def bvec_push_wchar (v : bvec) (c : Nat) : Option bvec :=
  bvec_bpush v [c % 256, c / 256 % 256]

/-- bvec_getwcs: if the buffer is empty or its last wchar_t is not the
terminator, push one wide terminator. -/
def bvec_getwcs (v : bvec) : Option bvec :=
  if bvec_empty v || !(bvec_tback_wchar v == 0) then bvec_push_wchar v 0 else some v

/-- The retry loop shared by bvec_vprintf and bvec_vwprintf, in elements of
the respective character type.  outLen is the element length of the fully
rendered text (the formatter is an external collaborator and is rendering
deterministic, so its output length is a fixed parameter); the bounded
formatter writes min outLen (bufsize - 1) elements before the forced
terminator, and the loop exits when that string length is strictly below
bufsize - 1, otherwise it checks the fatal "integer overflow" assert
(size_t doubling) and doubles the buffer.  Result: some bufsize on exit,
none on the fatal abort. -/
def printfLoop (outLen bufsize : Nat) : Option Nat :=
  if min outLen (bufsize - 1) < bufsize - 1 then some bufsize
  else if h : bufsize * 2 % SIZE_MOD > bufsize then
    printfLoop outLen (bufsize * 2 % SIZE_MOD)
  else none
termination_by SIZE_MOD - bufsize
decreasing_by
  have hm : bufsize * 2 % SIZE_MOD < SIZE_MOD := Nat.mod_lt _ (by norm_num [SIZE_MOD])
  omega

/-- The structural invariant of a buffer, as the spec states it, plus the
size_t range bound on the capacity: begin <= end <= capacity_end reads
size <= capacity in the model (begin <= end holds by construction), and
begin is null iff the capacity is zero. -/
@[reducible] def bvec_wf (v : bvec) : Prop :=
  bvec_bsize v ≤ bvec_bcapacity v
    ∧ (v.nullBegin = true ↔ bvec_bcapacity v = 0)
    ∧ bvec_bcapacity v < SIZE_MOD

/-- The byte sequence pushed for a scalar value c by utf16_to_utf8: the 1
to 4 byte UTF-8 encoding, exactly the four cstr_pushback branches. -/
def utf8Enc (c : Nat) : List Nat :=
  if c < 128 then [c]
  else if c < 2048 then [0xc0 ||| (c >>> 6), 0x80 ||| (c &&& 0x3f)]
  else if c < 65536 then
    [0xe0 ||| (c >>> 12), 0x80 ||| ((c >>> 6) &&& 0x3f), 0x80 ||| (c &&& 0x3f)]
  else
    [0xf0 ||| (c >>> 18), 0x80 ||| ((c >>> 12) &&& 0x3f),
     0x80 ||| ((c >>> 6) &&& 0x3f), 0x80 ||| (c &&& 0x3f)]

/-- utf16_to_utf8 from wstr.c, on the list of 16-bit code units of the
NUL-terminated input (the terminator itself is the end of the list).  A
unit outside the surrogate range is encoded directly; a high surrogate
followed by a low surrogate is combined and both are consumed; any other
surrogate encodes the replacement character 0xfffd.  Reading the unit
after a trailing high surrogate sees the terminator, which fails the low
surrogate test and is not consumed. -/
def utf16_to_utf8 : List Nat → List Nat
  | [] => []
  | [w1] =>
    if w1 &&& 0xf800 ≠ 0xd800 then utf8Enc w1
    else utf8Enc 0xfffd
  | w1 :: w2 :: s =>
    if w1 &&& 0xf800 ≠ 0xd800 then utf8Enc w1 ++ utf16_to_utf8 (w2 :: s)
    else if w1 &&& 0xfc00 = 0xd800 then
      if w2 &&& 0xfc00 = 0xdc00 then
        utf8Enc ((((w1 &&& 0x3ff) <<< 10) ||| (w2 &&& 0x3ff)) + 0x10000) ++ utf16_to_utf8 s
      else utf8Enc 0xfffd ++ utf16_to_utf8 (w2 :: s)
    else utf8Enc 0xfffd ++ utf16_to_utf8 (w2 :: s)

/-- The leading-byte classification of utf8_to_utf16: the pair (n, c) of
continuation byte count and initial accumulator. -/
def utf8Hdr (b : Nat) : Nat × Nat :=
  if b ≤ 0x7f then (0, b)
  else if b < 0xc2 then (0, 0xfffd)
  else if b ≤ 0xdf then (1, b &&& 0x1f)
  else if b ≤ 0xef then (2, b &&& 0xf)
  else if b ≤ 0xf4 then (3, b &&& 0x7)
  else (0, 0xfffd)

/-- The continuation byte bounds (l, h) of utf8_to_utf16: tightened on the
first continuation byte for the four special leading bytes. -/
def utf8ContRange (first : Bool) (b0 : Nat) : Nat × Nat :=
  if first then
    if b0 = 0xe0 then (0xa0, 0xbf)
    else if b0 = 0xed then (0x80, 0x9f)
    else if b0 = 0xf0 then (0x90, 0xbf)
    else if b0 = 0xf4 then (0x80, 0x8f)
    else (0x80, 0xbf)
  else (0x80, 0xbf)

/-- The inner continuation loop of utf8_to_utf16 (for i = 1..n): read the
next byte without consuming it, check it against the bounds, on failure
set the accumulator to 0xfffd and break leaving the byte unconsumed (the
end of the list is the unconsumed terminator, which always fails), on
success accumulate six more bits and consume it.  Returns the final
accumulator and the remaining input. -/
def utf8Cont (b0 : Nat) : Nat → Bool → Nat → List Nat → Nat × List Nat
  | 0, _, c, s => (c, s)
  | k + 1, first, c, s =>
    match s with
    | [] => (0xfffd, [])
    | b :: rest =>
      if b < (utf8ContRange first b0).1 ∨ (utf8ContRange first b0).2 < b then (0xfffd, b :: rest)
      else utf8Cont b0 k false ((c <<< 6) ||| (b &&& 0x3f)) rest

/-- The code units pushed for a decoded scalar c by utf8_to_utf16: one unit
below 0x10000, otherwise the surrogate pair. -/
def utf16Out (c : Nat) : List Nat :=
  if c < 0x10000 then [c]
  else [0xd800 ||| ((c - 0x10000) >>> 10), 0xdc00 ||| ((c - 0x10000) &&& 0x3ff)]

/-- utf8_to_utf16 from wstr.c, on the byte list of the NUL-terminated
input: classify the leading byte, run the continuation loop, push the
result as UTF-16. -/
def utf8_to_utf16 (l : List Nat) : List Nat :=
  match l with
  | [] => []
  | b :: s =>
    let r := utf8Cont b (utf8Hdr b).1 true (utf8Hdr b).2 s
    utf16Out r.1 ++ utf8_to_utf16 r.2
termination_by l.length
decreasing_by
  simp only [List.length_cons]
  have key : ∀ k b0 first c t, (utf8Cont b0 k first c t).2.length ≤ List.length t := by
    intro k
    induction k with
    | zero => intro b0 first c t; simp [utf8Cont]
    | succ k ih =>
      intro b0 first c t
      cases t with
      | nil => simp [utf8Cont]
      | cons b rest =>
        simp only [utf8Cont]
        split
        · simp
        · exact Nat.le_trans (ih b0 false _ rest) (Nat.le_succ _)
  exact Nat.lt_succ_of_le (key _ _ _ _ _)

/-- Well-formed UTF-16 input in the sense of claim C10: every code unit is
a nonzero 16-bit value (nonzero because the C string ends at the first
zero unit), and surrogates occur only as a high surrogate immediately
followed by a low surrogate. -/
def wf16 : List Nat → Bool
  | [] => true
  | [w1] =>
    if w1 = 0 ∨ 0x10000 ≤ w1 then false
    else decide (w1 &&& 0xf800 ≠ 0xd800)
  | w1 :: w2 :: s =>
    if w1 = 0 ∨ 0x10000 ≤ w1 then false
    else if w1 &&& 0xf800 ≠ 0xd800 then wf16 (w2 :: s)
    else if w1 &&& 0xfc00 = 0xd800 then
      decide (0 < w2 ∧ w2 < 0x10000) && decide (w2 &&& 0xfc00 = 0xdc00) && wf16 s
    else false

/-! ### Lemmas about the buffer operations -/

theorem breserveLoop_some {size cap nc : Nat} (h : breserveLoop size cap = some nc) :
    size ≤ nc ∧ cap ≤ nc ∧ (cap < SIZE_MOD → nc < SIZE_MOD) ∧ (0 < cap → 0 < nc) := by
  induction cap using breserveLoop.induct size with
  | case1 cap h1 h2 ih =>
    rw [breserveLoop, dif_pos h1, dif_pos h2] at h
    have hm : cap * 2 % SIZE_MOD < SIZE_MOD := Nat.mod_lt _ (by norm_num [SIZE_MOD])
    have := ih h
    omega
  | case2 cap h1 h2 =>
    rw [breserveLoop, dif_pos h1, dif_neg h2] at h
    simp at h
  | case3 cap h1 =>
    rw [breserveLoop, dif_neg h1] at h
    simp only [Option.some.injEq] at h
    omega

theorem breserveLoop_base {size cap : Nat} (h : size ≤ cap) :
    breserveLoop size cap = some cap := by
  rw [breserveLoop, dif_neg (by omega)]

theorem brealloc_wf {v : bvec} {n : Nat} (h : bvec_bsize v ≤ n) (hn : n < SIZE_MOD) :
    bvec_wf (bvec_brealloc v n) := by
  refine ⟨h, ?_, hn⟩
  simp [bvec_brealloc, bvec_bcapacity]

theorem breserve_some {v : bvec} {n : Nat} {r : bvec} (hwf : bvec_wf v)
    (h : bvec_breserve v n = some r) :
    r.bytes = v.bytes ∧ n ≤ r.capacity ∧ v.capacity ≤ r.capacity ∧ bvec_wf r := by
  obtain ⟨h1, h2, h3⟩ := hwf
  simp only [bvec_breserve] at h
  split at h
  · exact absurd h (by simp)
  · rename_i nc hl
    simp only [Option.some.injEq] at h
    have hspec := breserveLoop_some hl
    have hst : 0 < (if bvec_bcapacity v ≠ 0 then bvec_bcapacity v else BVEC_DEFAULT_CAPACITY)
        ∧ (if bvec_bcapacity v ≠ 0 then bvec_bcapacity v else BVEC_DEFAULT_CAPACITY) < SIZE_MOD := by
      split
      · exact ⟨Nat.pos_of_ne_zero (by assumption), h3⟩
      · norm_num [BVEC_DEFAULT_CAPACITY, SIZE_MOD]
    subst h
    by_cases hon : bvec_bcapacity v < nc
    · rw [if_pos hon]
      refine ⟨rfl, by simpa [bvec_brealloc] using hspec.1, le_of_lt hon, ?_⟩
      exact brealloc_wf (le_trans h1 (le_of_lt hon)) (hspec.2.2.1 hst.2)
    · rw [if_neg hon]
      have hbc : bvec_bcapacity v = v.capacity := rfl
      exact ⟨rfl, by omega, le_refl _, h1, h2, h3⟩

theorem breserve_noop {v : bvec} {n : Nat} (hz : bvec_bcapacity v ≠ 0)
    (hn : n ≤ bvec_bcapacity v) : bvec_breserve v n = some v := by
  simp only [bvec_breserve]
  rw [if_pos hz, breserveLoop_base hn]
  simp

theorem bresize_grow_some {v : bvec} {n : Nat} {r : bvec} (hwf : bvec_wf v)
    (hn : bvec_bsize v < n) (h : bvec_bresize v n = some r) :
    r.bytes = v.bytes ++ List.replicate (n - bvec_bsize v) 205 ∧ n ≤ r.capacity
      ∧ v.capacity ≤ r.capacity ∧ bvec_wf r := by
  simp only [bvec_bresize, if_pos hn] at h
  split at h
  · exact absurd h (by simp)
  · rename_i w hw
    simp only [Option.some.injEq] at h
    obtain ⟨hb, hn2, hcap, hw1, hw2, hw3⟩ := breserve_some ⟨hwf.1, hwf.2.1, hwf.2.2⟩ hw
    subst h
    have hlen : w.bytes.length = bvec_bsize v := by rw [hb]; rfl
    refine ⟨?_, hn2, hcap, ?_, hw2, hw3⟩
    · show w.bytes ++ List.replicate (n - w.bytes.length) 205
        = v.bytes ++ List.replicate (n - bvec_bsize v) 205
      rw [hlen, hb]
    · show (w.bytes ++ List.replicate (n - w.bytes.length) 205).length ≤ w.capacity
      rw [List.length_append, List.length_replicate, hlen]
      omega

theorem bresize_shrink {v : bvec} {n : Nat} (hn : ¬ bvec_bsize v < n) :
    bvec_bresize v n = some { v with bytes := v.bytes.take n } := by
  simp [bvec_bresize, hn]

theorem bpush_nil (v : bvec) : bvec_bpush v [] = some v := by
  simp [bvec_bpush]

theorem bpush_some {v : bvec} {d : List Nat} {r : bvec} (hwf : bvec_wf v)
    (hd : d.length < SIZE_MOD) (h : bvec_bpush v d = some r) :
    r.bytes = v.bytes ++ d ∧ v.capacity ≤ r.capacity ∧ bvec_wf r := by
  by_cases h0 : d.length = 0
  · obtain rfl : d = [] := List.length_eq_zero.mp h0
    rw [bpush_nil] at h
    simp only [Option.some.injEq] at h
    subst h
    exact ⟨(List.append_nil _).symm, le_refl _, hwf⟩
  · simp only [bvec_bpush, if_neg h0] at h
    obtain ⟨h1, h2, h3⟩ := hwf
    have hvM : bvec_bsize v < SIZE_MOD := lt_of_le_of_lt h1 h3
    by_cases hov : bvec_bsize v + d.length < SIZE_MOD
    · have hmod : (bvec_bsize v + d.length) % SIZE_MOD = bvec_bsize v + d.length :=
        Nat.mod_eq_of_lt hov
      rw [hmod, if_pos (by omega)] at h
      split at h
      · exact absurd h (by simp)
      · rename_i w hw
        simp only [Option.some.injEq] at h
        obtain ⟨hb, hge, hcap, hw1, hw2, hw3⟩ :=
          bresize_grow_some ⟨h1, h2, h3⟩ (by omega) hw
        subst h
        have hlen : w.bytes.length = bvec_bsize v + d.length := by
          rw [hb, List.length_append, List.length_replicate]
          show bvec_bsize v + _ = _
          omega
        have htake : w.bytes.take (bvec_bsize v) = v.bytes := by
          rw [hb]
          have : bvec_bsize v = v.bytes.length := rfl
          rw [this, List.take_left]
        refine ⟨by rw [htake], hcap, ?_, hw2, hw3⟩
        show (w.bytes.take (bvec_bsize v) ++ d).length ≤ w.capacity
        rw [List.length_append, htake]
        show bvec_bsize v + d.length ≤ _
        omega
    · have hsub : (bvec_bsize v + d.length) % SIZE_MOD
          = bvec_bsize v + d.length - SIZE_MOD := by
        rw [Nat.mod_eq_sub_mod (by omega), Nat.mod_eq_of_lt (by omega)]
      rw [hsub, if_neg (by omega)] at h
      exact absurd h (by simp)

theorem bpop_spec {v : bvec} {n : Nat} (hwf : bvec_wf v) (h0 : 0 < n) (hn : n < SIZE_MOD) :
    (bvec_bsize v < n → bvec_bpop v n = none)
      ∧ (n ≤ bvec_bsize v →
          bvec_bpop v n = some { v with bytes := v.bytes.take (bvec_bsize v - n) }) := by
  obtain ⟨h1, h2, h3⟩ := hwf
  have hvM : bvec_bsize v < SIZE_MOD := lt_of_le_of_lt h1 h3
  have hm : n % SIZE_MOD = n := Nat.mod_eq_of_lt hn
  constructor
  · intro hlt
    simp only [bvec_bpop, if_neg (by omega : ¬ n = 0), hm]
    have hval : (bvec_bsize v + SIZE_MOD - n) % SIZE_MOD = bvec_bsize v + SIZE_MOD - n :=
      Nat.mod_eq_of_lt (by omega)
    rw [hval, if_neg (by omega)]
  · intro hge
    simp only [bvec_bpop, if_neg (by omega : ¬ n = 0), hm]
    have hval : (bvec_bsize v + SIZE_MOD - n) % SIZE_MOD = bvec_bsize v - n := by
      have hrw : bvec_bsize v + SIZE_MOD - n = SIZE_MOD + (bvec_bsize v - n) := by omega
      rw [hrw, Nat.add_mod_left, Nat.mod_eq_of_lt (by omega)]
    rw [hval, if_pos (by omega)]
    exact bresize_shrink (by omega)

theorem shrinkLoop_le (size cap : Nat) : shrinkLoop size cap ≤ cap := by
  induction cap using Nat.strong_induction_on with
  | _ cap ih =>
    rw [shrinkLoop]
    split
    · rename_i hc
      exact le_trans (ih (cap / 2) (by omega)) (by omega)
    · exact le_refl _

theorem shrinkLoop_ge {size cap : Nat} (h : size ≤ cap) : size ≤ shrinkLoop size cap := by
  induction cap using Nat.strong_induction_on with
  | _ cap ih =>
    rw [shrinkLoop]
    split
    · rename_i hc
      exact ih (cap / 2) (by omega) hc.2
    · exact h

theorem shrinkLoop_fit (size cap : Nat) :
    shrinkLoop size cap = 0 ∨ shrinkLoop size cap / 2 < size := by
  induction cap using Nat.strong_induction_on with
  | _ cap ih =>
    rw [shrinkLoop]
    split
    · rename_i hc
      exact ih (cap / 2) (by omega)
    · rename_i hc
      omega

theorem ctor_wf : bvec_wf bvec_ctor :=
  ⟨le_refl _, by simp [bvec_ctor, bvec_bcapacity], by norm_num [bvec_ctor, bvec_bcapacity, SIZE_MOD]⟩

theorem take_wf {v : bvec} (n : Nat) (hwf : bvec_wf v) :
    bvec_wf { v with bytes := v.bytes.take n } := by
  refine ⟨?_, hwf.2.1, hwf.2.2⟩
  show (v.bytes.take n).length ≤ _
  rw [List.length_take]
  exact le_trans (min_le_right _ _) hwf.1

theorem bpop_wf {v : bvec} {n : Nat} {r : bvec} (hwf : bvec_wf v)
    (h : bvec_bpop v n = some r) : bvec_wf r := by
  simp only [bvec_bpop] at h
  split at h
  · simp only [Option.some.injEq] at h
    subst h; exact hwf
  · split at h
    · rename_i hlt
      rw [bresize_shrink (by omega)] at h
      simp only [Option.some.injEq] at h
      subst h
      exact take_wf _ hwf
    · exact absurd h (by simp)

theorem bresize_wf {v : bvec} {n : Nat} {r : bvec} (hwf : bvec_wf v)
    (h : bvec_bresize v n = some r) : bvec_wf r := by
  by_cases hlt : bvec_bsize v < n
  · exact (bresize_grow_some hwf hlt h).2.2.2
  · rw [bresize_shrink hlt] at h
    simp only [Option.some.injEq] at h
    subst h
    exact take_wf _ hwf

/-- C1: after each public operation (construct, construct-from-bytes,
destroy-then-construct and clear-and-free (bvec_fclear), clear, copy, move,
swap, reserve, resize, shrink-to-fit, append-bytes (bvec_bpush),
append-buffer (bvec_vpush), truncate (bvec_bpop)) the structural invariant
holds: size <= capacity (begin <= end <= capacity_end) and the begin
pointer is null iff the capacity is zero.  Operations that can abort
fatally are quantified over their returning runs. -/
theorem C1_structural_invariant (v w : bvec) (d : List Nat) (n : Nat) (e : Bool)
    (hv : bvec_wf v) (hw : bvec_wf w) (hd : d.length < SIZE_MOD) :
    bvec_wf bvec_ctor
    ∧ (∀ r, bvec_bctor d = some r → bvec_wf r)
    ∧ bvec_wf (bvec_fclear v)
    ∧ bvec_wf (bvec_clear v)
    ∧ (∀ r, bvec_copy v w e = some r → bvec_wf r)
    ∧ bvec_wf (bvec_move v w e).1 ∧ bvec_wf (bvec_move v w e).2
    ∧ bvec_wf (bvec_swap v w).1 ∧ bvec_wf (bvec_swap v w).2
    ∧ (∀ r, bvec_breserve v n = some r → bvec_wf r)
    ∧ (∀ r, bvec_bresize v n = some r → bvec_wf r)
    ∧ bvec_wf (bvec_shrink v)
    ∧ (∀ r, bvec_bpush v d = some r → bvec_wf r)
    ∧ (∀ r, bvec_vpush v w = some r → bvec_wf r)
    ∧ (∀ r, bvec_bpop v n = some r → bvec_wf r) := by
  have hwlen : w.bytes.length < SIZE_MOD := lt_of_le_of_lt hw.1 hw.2.2
  refine ⟨ctor_wf, ?_, ctor_wf, ⟨Nat.zero_le _, hv.2.1, hv.2.2⟩, ?_, ?_, ?_, ?_, ?_, ?_, ?_, ?_, ?_, ?_, ?_⟩
  · intro r h
    exact (bpush_some ctor_wf hd h).2.2
  · intro r h
    cases e with
    | true =>
      rw [show bvec_copy v w true = some v from rfl] at h
      simp only [Option.some.injEq] at h
      subst h; exact hv
    | false =>
      rw [show bvec_copy v w false = bvec_bpush bvec_ctor w.bytes from rfl] at h
      exact (bpush_some ctor_wf hwlen h).2.2
  · cases e with
    | true => exact hv
    | false => exact hw
  · cases e with
    | true => exact hw
    | false => exact ctor_wf
  · exact hw
  · exact hv
  · intro r h
    exact (breserve_some hv h).2.2.2
  · intro r h
    exact bresize_wf hv h
  · exact brealloc_wf (shrinkLoop_ge hv.1) (lt_of_le_of_lt (shrinkLoop_le _ _) hv.2.2)
  · intro r h
    exact (bpush_some hv hd h).2.2
  · intro r h
    exact (bpush_some hv hwlen h).2.2
  · intro r h
    exact bpop_wf hv h

/-- C1 witness at concrete inputs. -/
theorem C1_structural_invariant_witness :
    bvec_wf bvec_ctor
    ∧ (∀ r, bvec_bctor [1, 2] = some r → bvec_wf r)
    ∧ bvec_wf (bvec_fclear ⟨[3], 8, false⟩)
    ∧ bvec_wf (bvec_clear ⟨[3], 8, false⟩)
    ∧ (∀ r, bvec_copy ⟨[3], 8, false⟩ ⟨[4, 5], 4, false⟩ false = some r → bvec_wf r)
    ∧ bvec_wf (bvec_move ⟨[3], 8, false⟩ ⟨[4, 5], 4, false⟩ false).1
    ∧ bvec_wf (bvec_move ⟨[3], 8, false⟩ ⟨[4, 5], 4, false⟩ false).2
    ∧ bvec_wf (bvec_swap ⟨[3], 8, false⟩ ⟨[4, 5], 4, false⟩).1
    ∧ bvec_wf (bvec_swap ⟨[3], 8, false⟩ ⟨[4, 5], 4, false⟩).2
    ∧ (∀ r, bvec_breserve ⟨[3], 8, false⟩ 3 = some r → bvec_wf r)
    ∧ (∀ r, bvec_bresize ⟨[3], 8, false⟩ 3 = some r → bvec_wf r)
    ∧ bvec_wf (bvec_shrink ⟨[3], 8, false⟩)
    ∧ (∀ r, bvec_bpush ⟨[3], 8, false⟩ [1, 2] = some r → bvec_wf r)
    ∧ (∀ r, bvec_vpush ⟨[3], 8, false⟩ ⟨[4, 5], 4, false⟩ = some r → bvec_wf r)
    ∧ (∀ r, bvec_bpop ⟨[3], 8, false⟩ 3 = some r → bvec_wf r) :=
  C1_structural_invariant ⟨[3], 8, false⟩ ⟨[4, 5], 4, false⟩ [1, 2] 3 false
    (by constructor <;> simp [bvec_bsize, bvec_bcapacity, SIZE_MOD])
    (by constructor <;> simp [bvec_bsize, bvec_bcapacity, SIZE_MOD])
    (by norm_num [SIZE_MOD])

/-- C2 counterexample: a freshly constructed buffer has capacity 0, which
already satisfies a reservation request of 0 bytes, yet bvec_breserve
reallocates it to the default capacity instead of leaving it unchanged. -/
theorem C2_counterexample :
    bvec_bcapacity bvec_ctor = 0 ∧ bvec_breserve bvec_ctor 0 ≠ some bvec_ctor := by
  constructor
  · rfl
  · simp [bvec_breserve, bvec_bcapacity, bvec_ctor, BVEC_DEFAULT_CAPACITY, breserveLoop,
      bvec_brealloc]

/-- C2 amended: reserve leaves the size and contents unchanged and
establishes capacity >= min_bytes on every returning run; it reallocates
only when the computed target capacity exceeds the current capacity, and in
particular a buffer whose NONZERO capacity already satisfies the request is
returned unchanged with no reallocation (a zero-capacity buffer is instead
reallocated to at least the default capacity, even for min_bytes = 0). -/
theorem C2_reserve (v : bvec) (n : Nat) (hv : bvec_wf v) :
    (∀ r, bvec_breserve v n = some r →
        bvec_bsize r = bvec_bsize v ∧ r.bytes = v.bytes ∧ n ≤ bvec_bcapacity r)
    ∧ (bvec_bcapacity v ≠ 0 → n ≤ bvec_bcapacity v → bvec_breserve v n = some v) := by
  constructor
  · intro r h
    obtain ⟨hb, hn2, _, _⟩ := breserve_some hv h
    exact ⟨by simp [bvec_bsize, hb], hb, hn2⟩
  · exact breserve_noop

/-- C2 witness at concrete inputs. -/
theorem C2_reserve_witness :
    (∀ r, bvec_breserve ⟨[1], 2, false⟩ 1 = some r →
        bvec_bsize r = bvec_bsize ⟨[1], 2, false⟩ ∧ r.bytes = [1] ∧ 1 ≤ bvec_bcapacity r)
    ∧ (bvec_bcapacity ⟨[1], 2, false⟩ ≠ 0 → 1 ≤ bvec_bcapacity ⟨[1], 2, false⟩ →
        bvec_breserve ⟨[1], 2, false⟩ 1 = some ⟨[1], 2, false⟩) :=
  C2_reserve ⟨[1], 2, false⟩ 1
    (by constructor <;> simp [bvec_bsize, bvec_bcapacity, SIZE_MOD])

/-- C3: shrink-to-fit never increases the capacity, leaves the size and
the stored bytes unchanged, and afterwards capacity < 2 * size, or the
capacity is 0 when the size is 0. -/
theorem C3_shrink (v : bvec) (hv : bvec_wf v) :
    bvec_bcapacity (bvec_shrink v) ≤ bvec_bcapacity v
    ∧ (bvec_shrink v).bytes = v.bytes
    ∧ bvec_bsize (bvec_shrink v) = bvec_bsize v
    ∧ (bvec_bcapacity (bvec_shrink v) < 2 * bvec_bsize (bvec_shrink v)
        ∨ (bvec_bsize (bvec_shrink v) = 0 ∧ bvec_bcapacity (bvec_shrink v) = 0)) := by
  have hle := shrinkLoop_le (bvec_bsize v) (bvec_bcapacity v)
  have hge := shrinkLoop_ge hv.1
  have hfit := shrinkLoop_fit (bvec_bsize v) (bvec_bcapacity v)
  refine ⟨hle, rfl, rfl, ?_⟩
  show shrinkLoop (bvec_bsize v) (bvec_bcapacity v) < 2 * bvec_bsize v
    ∨ (bvec_bsize v = 0 ∧ shrinkLoop (bvec_bsize v) (bvec_bcapacity v) = 0)
  omega

/-- C3 witness at a concrete input. -/
theorem C3_shrink_witness :
    bvec_bcapacity (bvec_shrink ⟨[1, 2], 8, false⟩) ≤ bvec_bcapacity ⟨[1, 2], 8, false⟩
    ∧ (bvec_shrink ⟨[1, 2], 8, false⟩).bytes = [1, 2]
    ∧ bvec_bsize (bvec_shrink ⟨[1, 2], 8, false⟩) = bvec_bsize ⟨[1, 2], 8, false⟩
    ∧ (bvec_bcapacity (bvec_shrink ⟨[1, 2], 8, false⟩)
          < 2 * bvec_bsize (bvec_shrink ⟨[1, 2], 8, false⟩)
        ∨ (bvec_bsize (bvec_shrink ⟨[1, 2], 8, false⟩) = 0
            ∧ bvec_bcapacity (bvec_shrink ⟨[1, 2], 8, false⟩) = 0)) :=
  C3_shrink ⟨[1, 2], 8, false⟩
    (by constructor <;> simp [bvec_bsize, bvec_bcapacity, SIZE_MOD])

/-- C4: when the old size plus the appended count does not overflow size_t,
every returning run of append-bytes yields the old size plus n as the new
size and the old bytes followed by the data as the new contents, and the
call with an empty data sequence (in particular a null pointer with count
0) is a no-op. -/
theorem C4_append (v : bvec) (d : List Nat) (hv : bvec_wf v)
    (hov : bvec_bsize v + d.length < SIZE_MOD) :
    (d.length = 0 → bvec_bpush v d = some v)
    ∧ (∀ r, bvec_bpush v d = some r →
        bvec_bsize r = bvec_bsize v + d.length ∧ r.bytes = v.bytes ++ d) := by
  constructor
  · intro h0
    obtain rfl := List.length_eq_zero.mp h0
    exact bpush_nil v
  · intro r h
    obtain ⟨hb, _, _⟩ := bpush_some hv (by omega) h
    exact ⟨by simp [bvec_bsize, hb], hb⟩

/-- C4 witness at concrete inputs. -/
theorem C4_append_witness :
    ((4 : Nat) = 0 → bvec_bpush ⟨[3], 8, false⟩ [9, 9, 9, 9] = some ⟨[3], 8, false⟩)
    ∧ (∀ r, bvec_bpush ⟨[3], 8, false⟩ [9, 9, 9, 9] = some r →
        bvec_bsize r = bvec_bsize ⟨[3], 8, false⟩ + 4 ∧ r.bytes = [3] ++ [9, 9, 9, 9]) := by
  have := C4_append ⟨[3], 8, false⟩ [9, 9, 9, 9]
    (by constructor <;> simp [bvec_bsize, bvec_bcapacity, SIZE_MOD])
    (by norm_num [bvec_bsize, SIZE_MOD])
  simpa using this

/-- C5: moving between distinct buffers transfers the whole struct of the
source to the destination verbatim (so the destination bytes equal the
pre-move source bytes) and resets the source to the empty state with size
0.  The first pair component is the new destination, the second the new
source. -/
theorem C5_move (dst src : bvec) :
    (bvec_move dst src false).1 = src
    ∧ (bvec_move dst src false).1.bytes = src.bytes
    ∧ (bvec_move dst src false).2 = bvec_ctor
    ∧ bvec_bsize (bvec_move dst src false).2 = 0 :=
  ⟨rfl, rfl, rfl, rfl⟩

/-- C6: self-copy, self-move and self-swap (the pointer-equality flag set,
both arguments the same buffer) leave the buffer completely unchanged. -/
theorem C6_self_ops (v : bvec) :
    bvec_copy v v true = some v
    ∧ bvec_move v v true = (v, v)
    ∧ bvec_swap v v = (v, v) :=
  ⟨rfl, rfl, rfl⟩

theorem getD_append_ge (l l2 : List Nat) (i : Nat) (h : l.length ≤ i) :
    (l ++ l2).getD i 0 = l2.getD (i - l.length) 0 := by
  simp [List.getD_eq_getElem?_getD, List.getElem?_append_right h]

/-- C7: get-as-string (narrow and wide) appends one terminator element
exactly when the buffer is empty or its last element is not the
terminator, and a second call returns the buffer unchanged, so repeated
calls never accumulate terminators.  The wide variant is stated for a
buffer whose byte size is a multiple of the element size, per the typed
view contract. -/
theorem C7_getstr (v w : bvec) {v1 w1 : bvec}
    (hwfv : bvec_wf v) (hwfw : bvec_wf w)
    (hv : bvec_getstr v = some v1)
    (hev : 2 ∣ bvec_bsize w) (hw : bvec_getwcs w = some w1) :
    (v1.bytes = if bvec_empty v || !(bvec_tback_char v == 0)
      then v.bytes ++ [0] else v.bytes)
    ∧ bvec_getstr v1 = some v1
    ∧ (w1.bytes = if bvec_empty w || !(bvec_tback_wchar w == 0)
        then w.bytes ++ [0, 0] else w.bytes)
    ∧ bvec_getwcs w1 = some w1 := by
  have hchar : v1.bytes = (if bvec_empty v || !(bvec_tback_char v == 0)
      then v.bytes ++ [0] else v.bytes) ∧ bvec_getstr v1 = some v1 := by
    by_cases hc : (bvec_empty v || !(bvec_tback_char v == 0)) = true
    · rw [bvec_getstr, if_pos hc] at hv
      have hv' : bvec_bpush v [0] = some v1 := by
        simpa [bvec_push_char] using hv
      obtain ⟨hb, _, _⟩ := bpush_some hwfv (by norm_num [SIZE_MOD]) hv'
      have hlen1 : v1.bytes.length = v.bytes.length + 1 := by rw [hb]; simp
      have hemp : bvec_empty v1 = false := by
        simp [bvec_empty, bvec_bsize, hlen1]
      have htb : bvec_tback_char v1 = 0 := by
        show v1.bytes.getD (bvec_bsize v1 - 1) 0 = 0
        show v1.bytes.getD (v1.bytes.length - 1) 0 = 0
        rw [hlen1, Nat.add_sub_cancel, hb]
        rw [getD_append_ge _ _ _ (le_refl _), Nat.sub_self]
        rfl
      rw [if_pos hc]
      refine ⟨hb, ?_⟩
      rw [bvec_getstr, if_neg (by simp [hemp, htb])]
    · rw [bvec_getstr, if_neg hc] at hv
      simp only [Option.some.injEq] at hv
      subst hv
      rw [if_neg hc]
      exact ⟨rfl, by rw [bvec_getstr, if_neg hc]⟩
  have hwide : w1.bytes = (if bvec_empty w || !(bvec_tback_wchar w == 0)
      then w.bytes ++ [0, 0] else w.bytes) ∧ bvec_getwcs w1 = some w1 := by
    obtain ⟨m, hm⟩ := hev
    by_cases hc : (bvec_empty w || !(bvec_tback_wchar w == 0)) = true
    · rw [bvec_getwcs, if_pos hc] at hw
      have hw' : bvec_bpush w [0, 0] = some w1 := by
        simpa [bvec_push_wchar] using hw
      obtain ⟨hb, _, _⟩ := bpush_some hwfw (by norm_num [SIZE_MOD]) hw'
      have hlen1 : w1.bytes.length = w.bytes.length + 2 := by rw [hb]; simp
      have hemp : bvec_empty w1 = false := by
        simp [bvec_empty, bvec_bsize, hlen1]
      have hmlen : w.bytes.length = 2 * m := hm
      have htb : bvec_tback_wchar w1 = 0 := by
        show w1.bytes.getD (2 * (bvec_bsize w1 / 2 - 1)) 0
          + 256 * w1.bytes.getD (2 * (bvec_bsize w1 / 2 - 1) + 1) 0 = 0
        have hidx : 2 * (bvec_bsize w1 / 2 - 1) = w.bytes.length := by
          show 2 * (w1.bytes.length / 2 - 1) = _
          rw [hlen1, hmlen]
          omega
        rw [hidx, hb, getD_append_ge _ _ _ (le_refl _),
          getD_append_ge _ _ _ (by omega), Nat.sub_self]
        have h1 : w.bytes.length + 1 - w.bytes.length = 1 := by omega
        rw [h1]
        rfl
      rw [if_pos hc]
      refine ⟨hb, ?_⟩
      rw [bvec_getwcs, if_neg (by simp [hemp, htb])]
    · rw [bvec_getwcs, if_neg hc] at hw
      simp only [Option.some.injEq] at hw
      subst hw
      rw [if_neg hc]
      exact ⟨rfl, by rw [bvec_getwcs, if_neg hc]⟩
  exact ⟨hchar.1, hchar.2, hwide.1, hwide.2⟩

/-- C7 witness at concrete inputs. -/
theorem C7_getstr_witness :
    (bvec.bytes ⟨[65, 0], 4, false⟩
        = if bvec_empty ⟨[65], 4, false⟩ || !(bvec_tback_char ⟨[65], 4, false⟩ == 0)
          then [65] ++ [0] else [65])
    ∧ bvec_getstr ⟨[65, 0], 4, false⟩ = some ⟨[65, 0], 4, false⟩
    ∧ (bvec.bytes ⟨[65, 0, 0, 0], 4, false⟩
        = if bvec_empty ⟨[65, 0], 4, false⟩ || !(bvec_tback_wchar ⟨[65, 0], 4, false⟩ == 0)
          then [65, 0] ++ [0, 0] else [65, 0])
    ∧ bvec_getwcs ⟨[65, 0, 0, 0], 4, false⟩ = some ⟨[65, 0, 0, 0], 4, false⟩ :=
  C7_getstr ⟨[65], 4, false⟩ ⟨[65, 0], 4, false⟩ (by decide) (by decide)
    (by simp [bvec_getstr, bvec_empty, bvec_bsize, bvec_tback_char, bvec_push_char, bvec_bpush,
      bvec_bresize, bvec_breserve, bvec_bcapacity, breserveLoop, bvec_brealloc, SIZE_MOD])
    (by decide)
    (by simp [bvec_getwcs, bvec_empty, bvec_bsize, bvec_tback_wchar, bvec_push_wchar, bvec_bpush,
      bvec_bresize, bvec_breserve, bvec_bcapacity, breserveLoop, bvec_brealloc, SIZE_MOD])

/-- C8: truncating by a positive count n larger than the current size hits
the fatal underflow assert (modelled as none, the aborting run); with
n at most the size it removes exactly n bytes from the end, keeping the
capacity, the begin pointer and the retained prefix unchanged. -/
theorem C8_truncate (v : bvec) (n : Nat) (hv : bvec_wf v) (h0 : 0 < n) (hn : n < SIZE_MOD) :
    (bvec_bsize v < n → bvec_bpop v n = none)
    ∧ (n ≤ bvec_bsize v →
        ∃ r, bvec_bpop v n = some r
          ∧ bvec_bsize r = bvec_bsize v - n
          ∧ bvec_bcapacity r = bvec_bcapacity v
          ∧ r.nullBegin = v.nullBegin
          ∧ r.bytes = v.bytes.take (bvec_bsize v - n)) := by
  obtain ⟨ha, hb⟩ := bpop_spec hv h0 hn
  refine ⟨ha, fun hge => ⟨_, hb hge, ?_, rfl, rfl, rfl⟩⟩
  show (v.bytes.take (bvec_bsize v - n)).length = bvec_bsize v - n
  have hsz : v.bytes.length = bvec_bsize v := rfl
  rw [List.length_take, hsz]
  omega

/-- C8 witness at concrete inputs. -/
theorem C8_truncate_witness :
    (bvec_bsize ⟨[1, 2, 3], 4, false⟩ < 2 → bvec_bpop ⟨[1, 2, 3], 4, false⟩ 2 = none)
    ∧ (2 ≤ bvec_bsize ⟨[1, 2, 3], 4, false⟩ →
        ∃ r, bvec_bpop ⟨[1, 2, 3], 4, false⟩ 2 = some r
          ∧ bvec_bsize r = bvec_bsize ⟨[1, 2, 3], 4, false⟩ - 2
          ∧ bvec_bcapacity r = bvec_bcapacity ⟨[1, 2, 3], 4, false⟩
          ∧ r.nullBegin = false
          ∧ r.bytes = [1, 2, 3].take (bvec_bsize ⟨[1, 2, 3], 4, false⟩ - 2)) :=
  C8_truncate ⟨[1, 2, 3], 4, false⟩ 2 (by decide) (by decide) (by decide)

/-- C9: the capacity-doubling retry loop of the formatted-text builder
(shared by the narrow and the wide variant) always terminates, either
returning a buffer size that the rendered length fits strictly below minus
one, or aborting fatally at the doubling overflow check; it never loops
forever (the loop is a total function and every run reaches one of the two
outcomes). -/
theorem C9_printf_loop (outLen bufsize : Nat) :
    (∃ bs, printfLoop outLen bufsize = some bs ∧ outLen < bs - 1)
    ∨ printfLoop outLen bufsize = none := by
  induction bufsize using printfLoop.induct outLen with
  | case1 bs h =>
    left
    exact ⟨bs, by rw [printfLoop, if_pos h], by omega⟩
  | case2 bs h h2 ih =>
    cases ih with
    | inl hex =>
      obtain ⟨c, hc1, hc2⟩ := hex
      exact Or.inl ⟨c, by rw [printfLoop, if_neg h, dif_pos h2]; exact hc1, hc2⟩
    | inr hnone =>
      exact Or.inr (by rw [printfLoop, if_neg h, dif_pos h2]; exact hnone)
  | case3 bs h h2 =>
    exact Or.inr (by rw [printfLoop, if_neg h, dif_neg h2])

/-! ### Bit-arithmetic toolkit for the UTF conversions -/

theorem testBit_mul_add {k b : Nat} (a : Nat) (hb : b < 2 ^ k) (i : Nat) :
    (2 ^ k * a + b).testBit i = if i < k then b.testBit i else a.testBit (i - k) := by
  rcases Nat.lt_or_ge i k with hik | hik
  · rw [if_pos hik, Nat.testBit_to_div_mod, Nat.testBit_to_div_mod]
    have hik' : i + (k - i) = k := by omega
    have hsplit : 2 ^ k * a = 2 ^ i * (2 ^ (k - i) * a) := by
      rw [← Nat.mul_assoc, ← Nat.pow_add, hik']
    rw [hsplit, Nat.add_comm, Nat.add_mul_div_left _ _ (Nat.two_pow_pos i)]
    obtain ⟨j, hj⟩ : ∃ j, k - i = j + 1 := ⟨k - i - 1, by omega⟩
    rw [hj, Nat.pow_succ]
    have hre : 2 ^ j * 2 * a = 2 * (2 ^ j * a) := by ring
    rw [hre, Nat.add_mul_mod_self_left]
  · rw [if_neg (by omega), Nat.testBit_to_div_mod, Nat.testBit_to_div_mod]
    have h2 : 2 ^ i = 2 ^ k * 2 ^ (i - k) := by
      rw [← Nat.pow_add]
      congr 1
      omega
    rw [h2, ← Nat.div_div_eq_div_mul, Nat.mul_add_div (Nat.two_pow_pos k),
      Nat.div_eq_of_lt hb, Nat.add_zero]

theorem lor_mul_add {k : Nat} (a b : Nat) (hb : b < 2 ^ k) :
    2 ^ k * a ||| b = 2 ^ k * a + b := by
  apply Nat.eq_of_testBit_eq
  intro i
  rw [Nat.testBit_or, testBit_mul_add a hb i]
  have h0 : (2 ^ k * a).testBit i = if i < k then false else a.testBit (i - k) := by
    have := testBit_mul_add (k := k) (b := 0) a (Nat.two_pow_pos k) i
    simpa using this
  rw [h0]
  rcases Nat.lt_or_ge i k with hik | hik
  · simp [hik]
  · rw [if_neg (by omega), if_neg (by omega)]
    have hbf : b.testBit i = false :=
      Nat.testBit_lt_two_pow (lt_of_lt_of_le hb (Nat.pow_le_pow_right (by norm_num) hik))
    simp [hbf]

theorem land_mul_mask {k : Nat} (a b c : Nat) (hb : b < 2 ^ k) :
    (2 ^ k * a + b) &&& (2 ^ k * c) = 2 ^ k * (a &&& c) := by
  apply Nat.eq_of_testBit_eq
  intro i
  rw [Nat.testBit_and, testBit_mul_add a hb i]
  have h1 : (2 ^ k * c).testBit i = if i < k then false else c.testBit (i - k) := by
    have := testBit_mul_add (k := k) (b := 0) c (Nat.two_pow_pos k) i
    simpa using this
  have h2 : (2 ^ k * (a &&& c)).testBit i
      = if i < k then false else (a &&& c).testBit (i - k) := by
    have := testBit_mul_add (k := k) (b := 0) (a &&& c) (Nat.two_pow_pos k) i
    simpa using this
  rw [h1, h2]
  rcases Nat.lt_or_ge i k with hik | hik
  · simp [hik]
  · rw [if_neg (by omega), if_neg (by omega), if_neg (by omega), Nat.testBit_and]

theorem and_mask_1f (x : Nat) : x &&& 0x1f = x % 32 := by
  have h := Nat.and_pow_two_sub_one_eq_mod x 5
  norm_num at h
  exact h

theorem and_mask_0f (x : Nat) : x &&& 0xf = x % 16 := by
  have h := Nat.and_pow_two_sub_one_eq_mod x 4
  norm_num at h
  exact h

theorem and_mask_07 (x : Nat) : x &&& 0x7 = x % 8 := by
  have h := Nat.and_pow_two_sub_one_eq_mod x 3
  norm_num at h
  exact h

theorem and_mask_3f (x : Nat) : x &&& 0x3f = x % 64 := by
  have h := Nat.and_pow_two_sub_one_eq_mod x 6
  norm_num at h
  exact h

theorem and_mask_3ff (x : Nat) : x &&& 0x3ff = x % 1024 := by
  have h := Nat.and_pow_two_sub_one_eq_mod x 10
  norm_num at h
  exact h

theorem and_f800 {w : Nat} (hw : w < 65536) : w &&& 0xf800 = 2048 * (w / 2048) := by
  have hsplit : w = 2 ^ 11 * (w / 2048) + w % 2048 := by omega
  have hm : (0xf800 : Nat) = 2 ^ 11 * 31 := by norm_num
  have h2 : w / 2048 &&& 31 = w / 2048 := by
    have h3 := Nat.and_pow_two_sub_one_eq_mod (w / 2048) 5
    norm_num at h3
    rw [h3]
    omega
  calc w &&& 0xf800 = (2 ^ 11 * (w / 2048) + w % 2048) &&& (2 ^ 11 * 31) := by
        rw [← hsplit, ← hm]
    _ = 2 ^ 11 * (w / 2048 &&& 31) := land_mul_mask _ _ _ (by omega)
    _ = 2048 * (w / 2048) := by rw [h2]; norm_num

theorem and_fc00 {w : Nat} (hw : w < 65536) : w &&& 0xfc00 = 1024 * (w / 1024) := by
  have hsplit : w = 2 ^ 10 * (w / 1024) + w % 1024 := by omega
  have hm : (0xfc00 : Nat) = 2 ^ 10 * 63 := by norm_num
  have h2 : w / 1024 &&& 63 = w / 1024 := by
    have h3 := Nat.and_pow_two_sub_one_eq_mod (w / 1024) 6
    norm_num at h3
    rw [h3]
    omega
  calc w &&& 0xfc00 = (2 ^ 10 * (w / 1024) + w % 1024) &&& (2 ^ 10 * 63) := by
        rw [← hsplit, ← hm]
    _ = 2 ^ 10 * (w / 1024 &&& 63) := land_mul_mask _ _ _ (by omega)
    _ = 1024 * (w / 1024) := by rw [h2]; norm_num

theorem lor_c0 {x : Nat} (hx : x < 64) : 0xc0 ||| x = 192 + x := by
  have h := lor_mul_add (k := 6) 3 x (by omega)
  norm_num at h
  exact h

theorem lor_80 {x : Nat} (hx : x < 64) : 0x80 ||| x = 128 + x := by
  have h := lor_mul_add (k := 6) 2 x (by omega)
  norm_num at h
  exact h

theorem lor_e0 {x : Nat} (hx : x < 16) : 0xe0 ||| x = 224 + x := by
  have h := lor_mul_add (k := 4) 14 x (by omega)
  norm_num at h
  exact h

theorem lor_f0 {x : Nat} (hx : x < 8) : 0xf0 ||| x = 240 + x := by
  have h := lor_mul_add (k := 3) 30 x (by omega)
  norm_num at h
  exact h

theorem lor_d800 {x : Nat} (hx : x < 1024) : 0xd800 ||| x = 55296 + x := by
  have h := lor_mul_add (k := 10) 54 x (by omega)
  norm_num at h
  exact h

theorem lor_dc00 {x : Nat} (hx : x < 1024) : 0xdc00 ||| x = 56320 + x := by
  have h := lor_mul_add (k := 10) 55 x (by omega)
  norm_num at h
  exact h

theorem lor_shl6 (c : Nat) {x : Nat} (hx : x < 64) : (c <<< 6) ||| x = 64 * c + x := by
  rw [Nat.shiftLeft_eq, Nat.mul_comm]
  have h := lor_mul_add (k := 6) c x hx
  norm_num at h ⊢
  exact h

theorem lor_shl10 (c : Nat) {x : Nat} (hx : x < 1024) : (c <<< 10) ||| x = 1024 * c + x := by
  rw [Nat.shiftLeft_eq, Nat.mul_comm]
  have h := lor_mul_add (k := 10) c x hx
  norm_num at h ⊢
  exact h

theorem shr6 (c : Nat) : c >>> 6 = c / 64 := by
  rw [Nat.shiftRight_eq_div_pow]

theorem shr10 (c : Nat) : c >>> 10 = c / 1024 := by
  rw [Nat.shiftRight_eq_div_pow]

theorem shr12 (c : Nat) : c >>> 12 = c / 4096 := by
  rw [Nat.shiftRight_eq_div_pow]

theorem shr18 (c : Nat) : c >>> 18 = c / 262144 := by
  rw [Nat.shiftRight_eq_div_pow]

/-! ### Normal forms of the UTF encoder and decoder pieces -/

theorem utf8Enc_eq1 {c : Nat} (h : c < 128) : utf8Enc c = [c] := by
  rw [utf8Enc, if_pos h]

theorem utf8Enc_eq2 {c : Nat} (h1 : 128 ≤ c) (h2 : c < 2048) :
    utf8Enc c = [192 + c / 64, 128 + c % 64] := by
  rw [utf8Enc, if_neg (by omega), if_pos h2, shr6, and_mask_3f,
    lor_c0 (by omega), lor_80 (by omega)]

theorem utf8Enc_eq3 {c : Nat} (h1 : 2048 ≤ c) (h2 : c < 65536) :
    utf8Enc c = [224 + c / 4096, 128 + c / 64 % 64, 128 + c % 64] := by
  rw [utf8Enc, if_neg (by omega), if_neg (by omega), if_pos h2, shr12, shr6]
  rw [and_mask_3f, and_mask_3f]
  rw [lor_e0 (by omega), lor_80 (by omega), lor_80 (by omega)]

theorem utf8Enc_eq4 {c : Nat} (h1 : 65536 ≤ c) (h2 : c < 1114112) :
    utf8Enc c = [240 + c / 262144, 128 + c / 4096 % 64, 128 + c / 64 % 64, 128 + c % 64] := by
  rw [utf8Enc, if_neg (by omega), if_neg (by omega), if_neg (by omega), shr18, shr12, shr6]
  rw [and_mask_3f, and_mask_3f, and_mask_3f]
  rw [lor_f0 (by omega), lor_80 (by omega), lor_80 (by omega), lor_80 (by omega)]

theorem utf16Out_lo {c : Nat} (h : c < 65536) : utf16Out c = [c] := by
  rw [utf16Out, if_pos h]

theorem utf16Out_hi {c : Nat} (h1 : 65536 ≤ c) (h2 : c < 1114112) :
    utf16Out c = [55296 + (c - 65536) / 1024, 56320 + (c - 65536) % 1024] := by
  rw [utf16Out, if_neg (by omega), shr10, and_mask_3ff,
    lor_d800 (by omega), lor_dc00 (by omega)]

theorem utf8_decode_cons (b : Nat) (s : List Nat) :
    utf8_to_utf16 (b :: s)
      = utf16Out (utf8Cont b (utf8Hdr b).1 true (utf8Hdr b).2 s).1
        ++ utf8_to_utf16 (utf8Cont b (utf8Hdr b).1 true (utf8Hdr b).2 s).2 := by
  rw [utf8_to_utf16]

theorem utf8Cont_zero (b0 : Nat) (first : Bool) (c : Nat) (s : List Nat) :
    utf8Cont b0 0 first c s = (c, s) := rfl

theorem utf8Cont_step {b0 k : Nat} {first : Bool} {c b : Nat} {rest : List Nat}
    (h : ¬(b < (utf8ContRange first b0).1 ∨ (utf8ContRange first b0).2 < b)) :
    utf8Cont b0 (k + 1) first c (b :: rest)
      = utf8Cont b0 k false ((c <<< 6) ||| (b &&& 0x3f)) rest := by
  simp only [utf8Cont]
  rw [if_neg h]

theorem utf8ContRange_false (b0 : Nat) : utf8ContRange false b0 = (0x80, 0xbf) := rfl

/-! ### Decoding an encoded scalar value -/

theorem dec_enc (c : Nat) (rest : List Nat) (h1 : 0 < c) (h2 : c < 1114112)
    (h3 : ¬(55296 ≤ c ∧ c ≤ 57343)) :
    utf8_to_utf16 (utf8Enc c ++ rest) = utf16Out c ++ utf8_to_utf16 rest := by
  by_cases hA : c < 128
  · rw [utf8Enc_eq1 hA, List.singleton_append, utf8_decode_cons,
      show utf8Hdr c = (0, c) from by rw [utf8Hdr, if_pos (by omega)]]
    rfl
  by_cases hB : c < 2048
  · rw [utf8Enc_eq2 (by omega) hB]
    rw [show ([192 + c / 64, 128 + c % 64] ++ rest)
      = (192 + c / 64) :: ((128 + c % 64) :: rest) from rfl]
    rw [utf8_decode_cons]
    rw [show utf8Hdr (192 + c / 64) = (1, (192 + c / 64) &&& 0x1f) from by
      rw [utf8Hdr, if_neg (by omega), if_neg (by omega), if_pos (by omega)]]
    have hacc0 : (192 + c / 64) &&& 0x1f = c / 64 := by
      rw [and_mask_1f]; omega
    rw [hacc0]
    show utf16Out (utf8Cont (192 + c / 64) 1 true (c / 64) ((128 + c % 64) :: rest)).1
        ++ utf8_to_utf16 (utf8Cont (192 + c / 64) 1 true (c / 64) ((128 + c % 64) :: rest)).2
      = utf16Out c ++ utf8_to_utf16 rest
    have hcond : ¬((128 + c % 64) < (utf8ContRange true (192 + c / 64)).1
        ∨ (utf8ContRange true (192 + c / 64)).2 < (128 + c % 64)) := by
      rw [show utf8ContRange true (192 + c / 64) = (0x80, 0xbf) from by
        rw [utf8ContRange, if_pos rfl, if_neg (by omega), if_neg (by omega),
          if_neg (by omega), if_neg (by omega)]]
      show ¬(128 + c % 64 < 128 ∨ 191 < 128 + c % 64)
      omega
    rw [utf8Cont_step hcond]
    have hacc1 : ((c / 64) <<< 6) ||| ((128 + c % 64) &&& 0x3f) = c := by
      rw [and_mask_3f]
      have hm : (128 + c % 64) % 64 = c % 64 := by omega
      rw [hm, lor_shl6 _ (by omega)]
      omega
    rw [hacc1, utf8Cont_zero]
  by_cases hC : c < 65536
  · rw [utf8Enc_eq3 (by omega) hC]
    rw [show ([224 + c / 4096, 128 + c / 64 % 64, 128 + c % 64] ++ rest)
      = (224 + c / 4096) :: ((128 + c / 64 % 64) :: ((128 + c % 64) :: rest)) from rfl]
    rw [utf8_decode_cons]
    rw [show utf8Hdr (224 + c / 4096) = (2, (224 + c / 4096) &&& 0xf) from by
      rw [utf8Hdr, if_neg (by omega), if_neg (by omega), if_neg (by omega), if_pos (by omega)]]
    have hacc0 : (224 + c / 4096) &&& 0xf = c / 4096 := by
      rw [and_mask_0f]; omega
    rw [hacc0]
    show utf16Out (utf8Cont (224 + c / 4096) 2 true (c / 4096)
        ((128 + c / 64 % 64) :: (128 + c % 64) :: rest)).1
      ++ utf8_to_utf16 (utf8Cont (224 + c / 4096) 2 true (c / 4096)
        ((128 + c / 64 % 64) :: (128 + c % 64) :: rest)).2
      = utf16Out c ++ utf8_to_utf16 rest
    have hcond1 : ¬((128 + c / 64 % 64) < (utf8ContRange true (224 + c / 4096)).1
        ∨ (utf8ContRange true (224 + c / 4096)).2 < (128 + c / 64 % 64)) := by
      rw [utf8ContRange, if_pos rfl]
      by_cases he0 : (224 + c / 4096) = 0xe0
      · rw [if_pos he0]
        show ¬(128 + c / 64 % 64 < 160 ∨ 191 < 128 + c / 64 % 64)
        omega
      · rw [if_neg he0]
        by_cases hed : (224 + c / 4096) = 0xed
        · rw [if_pos hed]
          show ¬(128 + c / 64 % 64 < 128 ∨ 159 < 128 + c / 64 % 64)
          omega
        · rw [if_neg hed, if_neg (by omega), if_neg (by omega)]
          show ¬(128 + c / 64 % 64 < 128 ∨ 191 < 128 + c / 64 % 64)
          omega
    rw [utf8Cont_step hcond1]
    have hacc1 : ((c / 4096) <<< 6) ||| ((128 + c / 64 % 64) &&& 0x3f) = c / 64 := by
      rw [and_mask_3f]
      have hm : (128 + c / 64 % 64) % 64 = c / 64 % 64 := by omega
      rw [hm, lor_shl6 _ (by omega)]
      omega
    rw [hacc1]
    have hcond2 : ¬((128 + c % 64) < (utf8ContRange false (224 + c / 4096)).1
        ∨ (utf8ContRange false (224 + c / 4096)).2 < (128 + c % 64)) := by
      rw [utf8ContRange_false]
      show ¬(128 + c % 64 < 128 ∨ 191 < 128 + c % 64)
      omega
    rw [utf8Cont_step hcond2]
    have hacc2 : ((c / 64) <<< 6) ||| ((128 + c % 64) &&& 0x3f) = c := by
      rw [and_mask_3f]
      have hm : (128 + c % 64) % 64 = c % 64 := by omega
      rw [hm, lor_shl6 _ (by omega)]
      omega
    rw [hacc2, utf8Cont_zero]
  · rw [utf8Enc_eq4 (by omega) h2]
    rw [show ([240 + c / 262144, 128 + c / 4096 % 64, 128 + c / 64 % 64, 128 + c % 64] ++ rest)
      = (240 + c / 262144) :: ((128 + c / 4096 % 64)
        :: ((128 + c / 64 % 64) :: ((128 + c % 64) :: rest))) from rfl]
    rw [utf8_decode_cons]
    rw [show utf8Hdr (240 + c / 262144) = (3, (240 + c / 262144) &&& 0x7) from by
      rw [utf8Hdr, if_neg (by omega), if_neg (by omega), if_neg (by omega),
        if_neg (by omega), if_pos (by omega)]]
    have hacc0 : (240 + c / 262144) &&& 0x7 = c / 262144 := by
      rw [and_mask_07]; omega
    rw [hacc0]
    show utf16Out (utf8Cont (240 + c / 262144) 3 true (c / 262144)
        ((128 + c / 4096 % 64) :: (128 + c / 64 % 64) :: (128 + c % 64) :: rest)).1
      ++ utf8_to_utf16 (utf8Cont (240 + c / 262144) 3 true (c / 262144)
        ((128 + c / 4096 % 64) :: (128 + c / 64 % 64) :: (128 + c % 64) :: rest)).2
      = utf16Out c ++ utf8_to_utf16 rest
    have hcond1 : ¬((128 + c / 4096 % 64) < (utf8ContRange true (240 + c / 262144)).1
        ∨ (utf8ContRange true (240 + c / 262144)).2 < (128 + c / 4096 % 64)) := by
      rw [utf8ContRange, if_pos rfl, if_neg (by omega), if_neg (by omega)]
      by_cases hf0 : (240 + c / 262144) = 0xf0
      · rw [if_pos hf0]
        show ¬(128 + c / 4096 % 64 < 144 ∨ 191 < 128 + c / 4096 % 64)
        omega
      · rw [if_neg hf0]
        by_cases hf4 : (240 + c / 262144) = 0xf4
        · rw [if_pos hf4]
          show ¬(128 + c / 4096 % 64 < 128 ∨ 143 < 128 + c / 4096 % 64)
          omega
        · rw [if_neg hf4]
          show ¬(128 + c / 4096 % 64 < 128 ∨ 191 < 128 + c / 4096 % 64)
          omega
    rw [utf8Cont_step hcond1]
    have hacc1 : ((c / 262144) <<< 6) ||| ((128 + c / 4096 % 64) &&& 0x3f) = c / 4096 := by
      rw [and_mask_3f]
      have hm : (128 + c / 4096 % 64) % 64 = c / 4096 % 64 := by omega
      rw [hm, lor_shl6 _ (by omega)]
      omega
    rw [hacc1]
    have hcond2 : ¬((128 + c / 64 % 64) < (utf8ContRange false (240 + c / 262144)).1
        ∨ (utf8ContRange false (240 + c / 262144)).2 < (128 + c / 64 % 64)) := by
      rw [utf8ContRange_false]
      show ¬(128 + c / 64 % 64 < 128 ∨ 191 < 128 + c / 64 % 64)
      omega
    rw [utf8Cont_step hcond2]
    have hacc2 : ((c / 4096) <<< 6) ||| ((128 + c / 64 % 64) &&& 0x3f) = c / 64 := by
      rw [and_mask_3f]
      have hm : (128 + c / 64 % 64) % 64 = c / 64 % 64 := by omega
      rw [hm, lor_shl6 _ (by omega)]
      omega
    rw [hacc2]
    have hcond3 : ¬((128 + c % 64) < (utf8ContRange false (240 + c / 262144)).1
        ∨ (utf8ContRange false (240 + c / 262144)).2 < (128 + c % 64)) := by
      rw [utf8ContRange_false]
      show ¬(128 + c % 64 < 128 ∨ 191 < 128 + c % 64)
      omega
    rw [utf8Cont_step hcond3]
    have hacc3 : ((c / 64) <<< 6) ||| ((128 + c % 64) &&& 0x3f) = c := by
      rw [and_mask_3f]
      have hm : (128 + c % 64) % 64 = c % 64 := by omega
      rw [hm, lor_shl6 _ (by omega)]
      omega
    rw [hacc3, utf8Cont_zero]

theorem utf8_decode_nil : utf8_to_utf16 [] = [] := by rw [utf8_to_utf16]

theorem roundtrip_aux : ∀ n s, List.length s ≤ n → wf16 s = true →
    utf8_to_utf16 (utf16_to_utf8 s) = s := by
  intro n
  induction n with
  | zero =>
    intro s hs _
    have hnil : s = [] := List.eq_nil_of_length_eq_zero (by omega)
    subst hnil
    exact utf8_decode_nil
  | succ n ih =>
    intro s hs hwf
    rcases s with _ | ⟨w1, rest1⟩
    · exact utf8_decode_nil
    rcases rest1 with _ | ⟨w2, s2⟩
    · simp only [wf16] at hwf
      by_cases hz : w1 = 0 ∨ 65536 ≤ w1
      · rw [if_pos hz] at hwf; cases hwf
      · rw [if_neg hz] at hwf
        have hsur : w1 &&& 0xf800 ≠ 0xd800 := by simpa using hwf
        simp only [utf16_to_utf8]
        rw [if_pos hsur]
        have hns : ¬(55296 ≤ w1 ∧ w1 ≤ 57343) := by
          have hmask := and_f800 (w := w1) (by omega)
          intro hcon
          apply hsur
          rw [hmask]
          omega
        have hd := dec_enc w1 [] (by omega) (by omega) hns
        rw [List.append_nil] at hd
        rw [hd, utf16Out_lo (by omega), utf8_decode_nil, List.append_nil]
    · simp only [wf16] at hwf
      by_cases hz : w1 = 0 ∨ 65536 ≤ w1
      · rw [if_pos hz] at hwf; cases hwf
      rw [if_neg hz] at hwf
      by_cases hsur : w1 &&& 0xf800 ≠ 0xd800
      · rw [if_pos hsur] at hwf
        simp only [utf16_to_utf8]
        rw [if_pos hsur]
        have hns : ¬(55296 ≤ w1 ∧ w1 ≤ 57343) := by
          have hmask := and_f800 (w := w1) (by omega)
          intro hcon
          apply hsur
          rw [hmask]
          omega
        rw [dec_enc w1 _ (by omega) (by omega) hns, utf16Out_lo (by omega)]
        rw [ih (w2 :: s2) (by simp at hs ⊢; omega) hwf]
        rfl
      · rw [if_neg hsur] at hwf
        by_cases hfc : w1 &&& 0xfc00 = 0xd800
        · rw [if_pos hfc] at hwf
          simp only [Bool.and_eq_true, decide_eq_true_eq] at hwf
          obtain ⟨⟨hw2r, hw2m⟩, hwfs2⟩ := hwf
          simp only [utf16_to_utf8]
          rw [if_neg hsur, if_pos hfc, if_pos hw2m]
          have hw1lt : w1 < 65536 := by omega
          have hq1 : w1 / 1024 = 54 := by
            have hmask := and_fc00 (w := w1) hw1lt
            rw [hmask] at hfc
            omega
          have hq2 : w2 / 1024 = 55 := by
            have hmask := and_fc00 (w := w2) hw2r.2
            rw [hmask] at hw2m
            omega
          have hcval : (((w1 &&& 0x3ff) <<< 10) ||| (w2 &&& 0x3ff)) + 65536
              = 1024 * (w1 % 1024) + w2 % 1024 + 65536 := by
            rw [and_mask_3ff, and_mask_3ff, lor_shl10 _ (by omega)]
          rw [hcval]
          rw [dec_enc _ _ (by omega) (by omega) (by omega)]
          rw [utf16Out_hi (by omega) (by omega)]
          rw [ih s2 (by simp at hs ⊢; omega) hwfs2]
          have hu1 : 55296 + (1024 * (w1 % 1024) + w2 % 1024 + 65536 - 65536) / 1024 = w1 := by
            omega
          have hu2 : 56320 + (1024 * (w1 % 1024) + w2 % 1024 + 65536 - 65536) % 1024 = w2 := by
            omega
          rw [hu1, hu2]
          rfl
        · rw [if_neg hfc] at hwf; cases hwf

/-- C10: for every well-formed UTF-16 code unit sequence (every unit a
nonzero 16-bit value, surrogates occurring only as a high surrogate
immediately followed by a low surrogate), converting it to UTF-8 with
utf16_to_utf8 and back with utf8_to_utf16 yields the original sequence. -/
theorem C10_utf16_roundtrip (s : List Nat) (h : wf16 s = true) :
    utf8_to_utf16 (utf16_to_utf8 s) = s :=
  roundtrip_aux s.length s (le_refl _) h

/-- C10 witness at a concrete input exercising all four encoder lengths
and both surrogate pairs. -/
theorem C10_utf16_roundtrip_witness :
    utf8_to_utf16 (utf16_to_utf8
        [72, 105, 127, 128, 2047, 2048, 55295, 57344, 65535, 55296, 56320, 56319, 57343])
      = [72, 105, 127, 128, 2047, 2048, 55295, 57344, 65535, 55296, 56320, 56319, 57343] :=
  C10_utf16_roundtrip
    [72, 105, 127, 128, 2047, 2048, 55295, 57344, 65535, 55296, 56320, 56319, 57343]
    (by decide)
